import Mathlib

/-!
Verification of the work-stealing thread-pool repository.

This file shallowly embeds the concurrent core of the repository:

* `cj.RingBuff` / `cj.Deque`   — `src/include/thiefdeque.hpp`
* `riften.Semaphore`           — `src/include/riften/semaphore.hpp`
* `riften` pool submission and task wrappers — `src/include/riften/thiefpool.hpp`

Machine integers (`std::int64_t`, `std::ptrdiff_t`) are modelled as `Int`;
the indices involved never approach the 64-bit range in any statement below,
so wrap-around is not modelled.  Heap cells holding task objects are modelled
by the values themselves; an uninitialised ring-buffer cell is `none`.

Atomic code is embedded as explicit state passing.  Where a claim is about
purely owner-side (sequential) behaviour the embedding threads the state
through each operation in program order; where a claim is about interference
(the semaphore's `acquire_all`, the pool's submission cursor) the embedding
takes an explicit schedule/interference argument so that every interleaving
of the source's individual atomic (or non-atomic) accesses is represented.
-/

namespace cj

/-- Model of `cj::detail::RingBuff<T>`: a power-of-two capacity array of atomic
pointer cells with modulo indexed load/store (`_data[i & _mask]`).
For a power-of-two capacity and int64 two's-complement arithmetic,
`i & (cap - 1)` equals the Euclidean remainder `i % cap`, which is how the
index is modelled here.  A cell value `none` models an uninitialised cell
(the C++ `new std::atomic<T*>[cap]` array starts indeterminate). -/
structure RingBuff (α : Type) where
  cap : Int
  data : List (Option α)
  deriving DecidableEq

/-- The physical slot backing logical index `i` (the source's `i & _mask`). -/
def RingBuff.slot (a : RingBuff α) (i : Int) : Nat := (i % a.cap).toNat

/-- Model of `RingBuff::store(i, x)`: relaxed store at the modulo index. -/
def RingBuff.store (a : RingBuff α) (i : Int) (x : Option α) : RingBuff α :=
  ⟨a.cap, a.data.set (a.slot i) x⟩

/-- Model of `RingBuff::load(i)`: relaxed load at the modulo index. -/
def RingBuff.load (a : RingBuff α) (i : Int) : Option α :=
  a.data.getD (a.slot i) none

/-- The copy loop of `RingBuff::resize`: `for (i = t; i != b; ++i)
ptr->store(i, load(i))`, running `n` iterations starting at logical
index `i` (the source loop runs `b - t` iterations; a negative range would
not terminate in the source and contributes zero iterations here). -/
def RingBuff.copyRange (src : RingBuff α) : Nat → Int → RingBuff α → RingBuff α
  | 0, _, dst => dst
  | n + 1, i, dst => RingBuff.copyRange src n (i + 1) (dst.store i (src.load i))

/-- Model of `RingBuff::resize(b, t)`: allocate a buffer of twice the capacity
(fresh cells uninitialised) and copy the logical range `[t, b)` into it.
The old buffer is a value here, so it is untouched (and not freed) by the
call, exactly as in the source where the old buffer is retired by the caller. -/
def RingBuff.resize (a : RingBuff α) (b t : Int) : RingBuff α :=
  RingBuff.copyRange a (b - t).toNat t ⟨2 * a.cap, List.replicate (2 * a.cap).toNat none⟩

/-- Model of `cj::Deque<T>`: owner indices `_top`/`_bottom` (int64), the current
ring buffer, and the vector of retired buffers.  The heap cell behind each
stored `T*` is modelled by the value sitting in the ring-buffer cell. -/
structure Deque (α : Type) where
  top : Int
  bottom : Int
  buffer : RingBuff α
  garbage : List (RingBuff α)
  deriving DecidableEq

/-- The `Deque(cap)` constructor: `top = bottom = 0`, a fresh buffer of the
given capacity (the source asserts `cap` is a nonzero power of two), empty
garbage list. -/
def Deque.new (α : Type) (cap : Int) : Deque α :=
  { top := 0, bottom := 0, buffer := ⟨cap, List.replicate cap.toNat none⟩, garbage := [] }

/-- Model of `_top.compare_exchange_strong(expected, desired)`: succeeds (and writes)
iff `_top` currently equals `expected`.  In a run without concurrent
thieves the owner's CAS always takes the success branch; keeping the
comparison explicit preserves the source's control flow. -/
def Deque.casTop (q : Deque α) (expected desired : Int) : Bool × Deque α :=
  if q.top = expected then (true, { q with top := desired }) else (false, q)

/-- Result of `Deque::emplace`: either the new deque state, or an exception
escaped (`thrown state destroyed`), recording the observable state at the
throw and whether the newly constructed element was `delete`d. -/
inductive EmplaceResult (α : Type) where
  | success : Deque α → EmplaceResult α
  | thrown : Deque α → Bool → EmplaceResult α
  deriving DecidableEq

/-- Model of `Deque::emplace(args...)` with explicit failure switches: `resizeOk`
models whether `a->resize(b, t)` (an allocation) succeeds and `pushBackOk`
whether `_garbage.push_back(...)` succeeds.  The source first heap-allocates
the element `x`, and on the resize path wraps
`_garbage.push_back(std::exchange(a, a->resize(b, t)))` in a try/catch that
deletes `x` and rethrows; `_buffer`, `_top` and `_bottom` are only written
after that point (`std::vector::push_back` leaves the vector unchanged if it
throws). -/
def Deque.emplaceE (q : Deque α) (x : α) (resizeOk pushBackOk : Bool) : EmplaceResult α :=
  let b := q.bottom
  let t := q.top
  let a := q.buffer
  if a.cap - 1 < b - t then
    if resizeOk then
      if pushBackOk then
        let a2 := a.resize b t
        let q2 := { q with buffer := (a2.store b (some x)), garbage := q.garbage ++ [a] }
        EmplaceResult.success { q2 with bottom := b + 1 }
      else EmplaceResult.thrown q true
    else EmplaceResult.thrown q true
  else
    EmplaceResult.success { q with buffer := a.store b (some x), bottom := b + 1 }

/-- Model of `Deque::emplace` on the no-failure path (allocations succeed). -/
def Deque.emplace (q : Deque α) (x : α) : Deque α :=
  match q.emplaceE x true true with
  | EmplaceResult.success q2 => q2
  | EmplaceResult.thrown q2 _ => q2

/-- Model of `Deque::pop()` as executed by the owner with no concurrent thief (so
the CAS on `_top` compares against the value just read):
decrement bottom, read top, and branch exactly as the source does.  Note the
source restores `_bottom` to `b + 1` only on the empty branch and on CAS
failure — after a successful CAS on the last element `_bottom` stays at `b`. -/
def Deque.pop (q : Deque α) : Option α × Deque α :=
  let b := q.bottom - 1
  let a := q.buffer
  let q1 := { q with bottom := b }
  let t := q1.top
  if t ≤ b then
    let x := a.load b
    if t = b then
      match q1.casTop t (t + 1) with
      | (true, q2) => (x, q2)
      | (false, q2) => (none, { q2 with bottom := b + 1 })
    else (x, q1)
  else
    (none, { q1 with bottom := b + 1 })

/-- Model of `Deque::steal()` as executed with no interference between its own top
read and its CAS (the CAS then succeeds whenever `t < b`). -/
def Deque.steal (q : Deque α) : Option α × Deque α :=
  let t := q.top
  let b := q.bottom
  if t < b then
    let x := q.buffer.load t
    match q.casTop t (t + 1) with
    | (true, q2) => (x, q2)
    | (false, q2) => (none, q2)
  else
    (none, q)

/-- An owner-side deque operation in a run where removal only ever uses
`steal` (the owner never pops): a `push` of a value or a `steal` attempt. -/
inductive Op (α : Type) where
  | push : α → Op α
  | steal : Op α
  deriving DecidableEq

/-- The values pushed by a run, in program order. -/
def pushedOf : List (Op α) → List α
  | [] => []
  | Op.push x :: rest => x :: pushedOf rest
  | Op.steal :: rest => pushedOf rest

/-- Execute a run of operations against a deque, collecting the values
returned by the successful steals in order. -/
def runOps : List (Op α) → Deque α → Deque α × List α
  | [], q => (q, [])
  | Op.push x :: rest, q => runOps rest (q.emplace x)
  | Op.steal :: rest, q =>
    match q.steal with
    | (some v, q') =>
      let (qf, out) := runOps rest q'
      (qf, v :: out)
    | (none, q') => runOps rest q'

end cj

namespace riften

/-- Model of `riften::Semaphore`: the atomic counter `m_count` (a `std::ptrdiff_t`,
negative values representing blocked waiters) over the kernel semaphore
`m_sema`, whose pending-signal count is modelled by `kernel`. -/
structure Semaphore where
  count : Int
  kernel : Nat
  deriving DecidableEq

/-- Interference by other threads is an explicit schedule: a list of deltas
applied to `m_count`, one consumed before each atomic access this call
performs.  An exhausted schedule means no further interference. -/
def envTake : List Int → Int × List Int
  | [] => (0, [])
  | d :: ds => (d, ds)

/-- The spin loop of `Semaphore::acquire_all`: up to `fuel` (10,000 in the
source) iterations of `old = m_count.load(); if (old > 0 &&
compare_exchange_strong(old, 0)) return;`.  Returns `some old` (the amount
the successful CAS consumed) or `none` if every iteration failed, together
with the final counter value and the unconsumed interference schedule.
A CAS succeeds exactly when the counter still equals the loaded `old` when
the CAS executes. -/
def Semaphore.spinAll : Nat → List Int → Int → Option Int × Int × List Int
  | 0, env, c => (none, c, env)
  | fuel + 1, env, c =>
    let env1 := (envTake env).2
    let c1 := c + (envTake env).1
    if 0 < c1 then
      let env2 := (envTake env1).2
      let c2 := c1 + (envTake env1).1
      if c2 = c1 then (some c1, 0, env2)
      else Semaphore.spinAll fuel env2 c2
    else Semaphore.spinAll fuel env1 c1

/-- Model of `Semaphore::try_aquire_all` (source spelling): load `old`; if positive,
CAS it to zero.  Result: (amount consumed, final counter, remaining
schedule); the source's `bool` result is `consumed ≠ 0`. -/
def Semaphore.try_aquire_all (env : List Int) (c : Int) : Int × Int × List Int :=
  let env1 := (envTake env).2
  let old := c + (envTake env).1
  if 0 < old then
    let env2 := (envTake env1).2
    let c2 := old + (envTake env1).1
    if c2 = old then (old, 0, env2) else (0, c2, env2)
  else (0, old, env1)

/-- Model of `Semaphore::acquire_all`: spin; on spin failure `m_count.fetch_sub(1)`,
block on the kernel semaphore if the fetched value was ≤ 0, then
opportunistically `try_aquire_all`.  Result: `none` if the call blocks on an
empty kernel semaphore (in this model no signal ever arrives afterwards),
otherwise `some (consumed, final state)` where `consumed` is the total
amount this call subtracted from `m_count`. -/
def Semaphore.acquire_all (env : List Int) (s : Semaphore) : Option (Int × Semaphore) :=
  match Semaphore.spinAll 10000 env s.count with
  | (some k, c, _) => some (k, ⟨c, s.kernel⟩)
  | (none, c0, env1) =>
    let env2 := (envTake env1).2
    let old := c0 + (envTake env1).1
    let c1 := old - 1
    if old ≤ 0 then
      match s.kernel with
      | 0 => none
      | kk + 1 =>
        some (1 + (Semaphore.try_aquire_all env2 c1).1, ⟨(Semaphore.try_aquire_all env2 c1).2.1, kk⟩)
    else
      some (1 + (Semaphore.try_aquire_all env2 c1).1,
        ⟨(Semaphore.try_aquire_all env2 c1).2.1, s.kernel⟩)

/-- Model of `Semaphore::release(update)`: `oldCount = m_count.fetch_add(update)`;
`toRelease = -oldCount < update ? -oldCount : update`; if positive, signal
the kernel semaphore `toRelease` times.  Result: (state after, number of
kernel signals performed). -/
def Semaphore.release (s : Semaphore) (update : Int) : Semaphore × Int :=
  let oldCount := s.count
  let newCount := oldCount + update
  let toRelease := if -oldCount < update then -oldCount else update
  if 0 < toRelease then (⟨newCount, s.kernel + toRelease.toNat⟩, toRelease)
  else (⟨newCount, s.kernel⟩, 0)

/-- The observable pool shape built by the `Thiefpool` constructor:
`_deques(num_threads)` — the constructor performs no validation, so
`num_threads = 0` just yields an empty deque vector. -/
structure Thiefpool where
  dequeCount : Nat
  deriving DecidableEq

/-- Model of `Thiefpool::Thiefpool(num_threads)`. -/
def Thiefpool.new (numThreads : Nat) : Thiefpool := ⟨numThreads⟩

/-- The index computation of `Thiefpool::execute`:
`std::size_t i = count++ % _deques.size()`.  In C++ the remainder by zero is
undefined, which is modelled by `none`. -/
def Thiefpool.executeIndex (p : Thiefpool) (countVal : Nat) : Option Nat :=
  if p.dequeCount = 0 then none else some (countVal % p.dequeCount)

/-- Sequential submissions through `execute`: `count` starts at `0`; each
submission computes `count % N` as its target deque and then increments
`count`.  Returns the cursor value and the list of targets after `k`
submissions by a single thread. -/
def runSubmits (N : Nat) : Nat → Nat × List Nat
  | 0 => (0, [])
  | k + 1 =>
    let (c, ts) := runSubmits N k
    (c + 1, ts ++ [c % N])

/-- The worker loop's victim choice:
`t = spin++ < 100 || !_deques[id].tasks.empty() ? id : xoroshiro128() % _deques.size()`.
`preferOwn` is the value of the disjunction, `rng` the PRNG draw. -/
def chooseVictim (N id : Nat) (preferOwn : Bool) (rng : Nat) : Nat :=
  if preferOwn then id else rng % N

/-- One submitter thread executing the non-atomic `count++` of
`Thiefpool::execute`: on a plain `std::size_t` this is a load of `count`
into a register followed by a store of `register + 1`, with no atomicity
between the two.  `reg` holds the loaded value (the submission's cursor
value), `wrote` whether the store has happened. -/
structure SubThread where
  reg : Option Nat
  wrote : Bool
  deriving DecidableEq

/-- A submitter that has not yet touched the cursor. -/
def SubThread.start : SubThread := ⟨none, false⟩

/-- One machine step of a submitter: first the load, then the store. -/
def subStep (c : Nat) (th : SubThread) : Nat × SubThread :=
  match th.reg with
  | none => (c, { th with reg := some c })
  | some r => if th.wrote then (c, th) else (r + 1, { th with wrote := true })

/-- The deque this submission targets, `reg % N`, once the load happened. -/
def SubThread.target (th : SubThread) (N : Nat) : Option Nat :=
  th.reg.map (fun r => r % N)

/-- Interleave two submitter threads over the shared plain cursor according
to a schedule (`true` steps the first thread, `false` the second). -/
def runRace : List Bool → Nat → SubThread → SubThread → Nat × SubThread × SubThread
  | [], c, t1, t2 => (c, t1, t2)
  | true :: s, c, t1, t2 =>
    let (c1, t1') := subStep c t1
    runRace s c1 t1' t2
  | false :: s, c, t1, t2 =>
    let (c1, t2') := subStep c t2
    runRace s c1 t1 t2'

/-- The result of invoking a task body: a value or a raised exception
(exceptions carried as a numeric tag). -/
inductive Outcome (α : Type) where
  | val : α → Outcome α
  | exn : Nat → Outcome α
  deriving DecidableEq

/-- The terminal state a `std::promise` is put into. -/
inductive PromiseState (α : Type) where
  | value : α → PromiseState α
  | failure : Nat → PromiseState α
  deriving DecidableEq

/-- Model of `detail::NullaryOneShot::operator()()`, given the outcome of invoking
the stored callable: `try { _promise.set_value(std::invoke(...)); }
catch (...) { _promise.set_exception(std::current_exception()); }`.
Returns the promise's terminal state and the exception escaping the call
(always `none`: every failure is captured into the promise). -/
def nullaryOneShotRun (body : Outcome α) : PromiseState α × Option Nat :=
  match body with
  | Outcome.val a => (PromiseState.value a, none)
  | Outcome.exn e => (PromiseState.failure e, none)

/-- The `enqueue_detach` path: `execute(detail::bind(...))` submits the bound
lambda itself, and the worker loop runs it as
`std::invoke(std::move(*one_shot))` with no handler anywhere, so the result
is whatever exception escapes into the worker loop (`none` for a normal
return). -/
def detachedRun (body : Outcome Unit) : Option Nat :=
  match body with
  | Outcome.val _ => none
  | Outcome.exn e => some e

end riften

namespace cj

theorem getD_set_self {β : Type} (l : List β) (n : Nat) (x d : β) (h : n < l.length) :
    (l.set n x).getD n d = x := by
  induction l generalizing n with
  | nil => simp at h
  | cons a l ih =>
    cases n with
    | zero => simp [List.set, List.getD]
    | succ m =>
      simp only [List.set, List.getD] at *
      simpa using ih m (by simpa using h)

theorem getD_set_ne {β : Type} (l : List β) (n m : Nat) (x d : β) (h : n ≠ m) :
    (l.set n x).getD m d = l.getD m d := by
  induction l generalizing n m with
  | nil => simp [List.set]
  | cons a l ih =>
    cases n with
    | zero =>
      cases m with
      | zero => exact absurd rfl h
      | succ k => simp [List.set, List.getD]
    | succ j =>
      cases m with
      | zero => simp [List.set, List.getD]
      | succ k =>
        simp only [List.set, List.getD] at *
        simpa using ih j k (fun hjk => h (by omega))

theorem RingBuff.store_cap (a : RingBuff α) (i : Int) (x : Option α) :
    (a.store i x).cap = a.cap := rfl

theorem RingBuff.store_length (a : RingBuff α) (i : Int) (x : Option α) :
    (a.store i x).data.length = a.data.length := by
  simp [RingBuff.store]

theorem RingBuff.load_store_self (a : RingBuff α) (i : Int) (x : Option α)
    (hcap : 0 < a.cap) (hlen : a.data.length = a.cap.toNat) :
    (a.store i x).load i = x := by
  have hmod : 0 ≤ i % a.cap := Int.emod_nonneg i (by omega)
  have hlt : i % a.cap < a.cap := Int.emod_lt_of_pos i hcap
  have hslot : a.slot i < a.data.length := by
    rw [hlen]
    unfold RingBuff.slot
    omega
  unfold RingBuff.load RingBuff.store
  simp only []
  exact getD_set_self a.data (a.slot i) x none hslot

theorem RingBuff.slot_eq_iff (a : RingBuff α) (i j : Int) (hcap : 0 < a.cap) :
    a.slot i = a.slot j ↔ i % a.cap = j % a.cap := by
  unfold RingBuff.slot
  constructor
  · intro h
    have hi : 0 ≤ i % a.cap := Int.emod_nonneg i (by omega)
    have hj : 0 ≤ j % a.cap := Int.emod_nonneg j (by omega)
    omega
  · intro h; rw [h]

theorem RingBuff.slot_ne_of_small_gap (a : RingBuff α) (i j : Int) (hcap : 0 < a.cap)
    (hlt : i < j) (hgap : j - i < a.cap) : a.slot i ≠ a.slot j := by
  intro heq
  have h : i % a.cap = j % a.cap := (RingBuff.slot_eq_iff a i j hcap).mp heq
  have h0 : (j - i) % a.cap = 0 := by
    rw [Int.sub_emod, h, sub_self, Int.zero_emod]
  have hdvd : a.cap ∣ (j - i) := Int.dvd_of_emod_eq_zero h0
  have := Int.le_of_dvd (by omega) hdvd
  omega

theorem RingBuff.slot_store (a : RingBuff α) (i j : Int) (x : Option α) :
    (a.store i x).slot j = a.slot j := rfl

theorem RingBuff.load_store_ne (a : RingBuff α) (i j : Int) (x : Option α)
    (h : a.slot i ≠ a.slot j) : (a.store i x).load j = a.load j := by
  unfold RingBuff.load RingBuff.store
  simp only []
  exact getD_set_ne a.data (a.slot i) (a.slot j) x none h

theorem RingBuff.copyRange_cap (src : RingBuff α) (m : Nat) (i : Int) (dst : RingBuff α) :
    (src.copyRange m i dst).cap = dst.cap := by
  induction m generalizing i dst with
  | zero => rfl
  | succ n ih => simpa [RingBuff.copyRange] using ih (i + 1) (dst.store i (src.load i))

theorem RingBuff.copyRange_length (src : RingBuff α) (m : Nat) (i : Int) (dst : RingBuff α) :
    (src.copyRange m i dst).data.length = dst.data.length := by
  induction m generalizing i dst with
  | zero => rfl
  | succ n ih =>
    calc (src.copyRange (n + 1) i dst).data.length
        = (dst.store i (src.load i)).data.length := ih (i + 1) _
    _ = dst.data.length := RingBuff.store_length dst i _

theorem RingBuff.copyRange_load_out (src : RingBuff α) (m : Nat) (i₀ : Int)
    (dst : RingBuff α) (j : Int) (h : ∀ r : Nat, r < m → dst.slot (i₀ + r) ≠ dst.slot j) :
    (src.copyRange m i₀ dst).load j = dst.load j := by
  induction m generalizing i₀ dst with
  | zero => rfl
  | succ n ih =>
    have hstep : (src.copyRange (n + 1) i₀ dst).load j
        = (dst.store i₀ (src.load i₀)).load j := by
      apply ih (i₀ + 1)
      intro r hr
      have := h (r + 1) (by omega)
      have harith : i₀ + 1 + (r : Int) = i₀ + ((r : Nat) + 1 : Nat) := by push_cast; ring
      rw [harith]
      exact this
    rw [hstep]
    apply RingBuff.load_store_ne
    have := h 0 (by omega)
    simpa using this

theorem RingBuff.copyRange_load_in (src : RingBuff α) (m : Nat) (i₀ : Int)
    (dst : RingBuff α) (hcap : 0 < dst.cap) (hlen : dst.data.length = dst.cap.toNat)
    (hm : (m : Int) < dst.cap) (i : Int) (hi₀ : i₀ ≤ i) (hi : i < i₀ + m) :
    (src.copyRange m i₀ dst).load i = src.load i := by
  induction m generalizing i₀ dst with
  | zero => omega
  | succ n ih =>
    show RingBuff.load (src.copyRange n (i₀ + 1) (dst.store i₀ (src.load i₀))) i = _
    by_cases hcase : i = i₀
    · subst hcase
      have hout : (src.copyRange n (i + 1) (dst.store i (src.load i))).load i
          = (dst.store i (src.load i)).load i := by
        apply RingBuff.copyRange_load_out
        intro r hr
        simp only [RingBuff.slot_store]
        apply Ne.symm
        apply RingBuff.slot_ne_of_small_gap dst i (i + 1 + r) hcap (by omega) (by push_cast at hm ⊢; omega)
      rw [hout]
      exact RingBuff.load_store_self dst i (src.load i) hcap hlen
    · apply ih (i₀ + 1) (dst.store i₀ (src.load i₀))
      · rw [RingBuff.store_cap]; exact hcap
      · rw [RingBuff.store_length, RingBuff.store_cap]; exact hlen
      · rw [RingBuff.store_cap]; push_cast at hm ⊢; omega
      · omega
      · push_cast at hi ⊢; omega

theorem RingBuff.resize_cap (a : RingBuff α) (b t : Int) :
    (a.resize b t).cap = 2 * a.cap :=
  RingBuff.copyRange_cap a (b - t).toNat t _

theorem RingBuff.resize_length (a : RingBuff α) (b t : Int) :
    (a.resize b t).data.length = (2 * a.cap).toNat := by
  unfold RingBuff.resize
  rw [RingBuff.copyRange_length]
  simp

theorem RingBuff.resize_load (a : RingBuff α) (b t : Int) (hcap : 0 < a.cap)
    (hle : t ≤ b) (hsz : b - t ≤ a.cap) (i : Int) (hti : t ≤ i) (hib : i < b) :
    (a.resize b t).load i = a.load i := by
  unfold RingBuff.resize
  apply RingBuff.copyRange_load_in
  · show (0 : Int) < 2 * a.cap; omega
  · simp
  · show ((b - t).toNat : Int) < 2 * a.cap; omega
  · exact hti
  · show i < t + (b - t).toNat; omega

/-- Run invariant for a deque whose owner pushes but never pops, while
removal happens through `steal` only: `pushed` is the list of all values
pushed so far and `stolen` how many steals have succeeded.  `top` counts the
successful steals, `bottom` the pushes, and every not-yet-stolen value sits
in its ring-buffer cell. -/
structure StealInv (q : Deque α) (pushed : List α) (stolen : Nat) : Prop where
  top_eq : q.top = stolen
  bot_eq : q.bottom = pushed.length
  stolen_le : stolen ≤ pushed.length
  cap_pos : 0 < q.buffer.cap
  len_eq : q.buffer.data.length = q.buffer.cap.toNat
  size_le : (pushed.length : Int) - stolen ≤ q.buffer.cap
  cells : ∀ i : Nat, stolen ≤ i → i < pushed.length → q.buffer.load i = pushed[i]?

theorem stealInv_new (α : Type) (cap : Int) (hcap : 0 < cap) :
    StealInv (Deque.new α cap) [] 0 := by
  refine ⟨rfl, rfl, le_refl _, hcap, ?_, by simpa using hcap.le, ?_⟩
  · simp [Deque.new]
  · intro i h1 h2; simp at h2

theorem stealInv_emplace {q : Deque α} {pushed : List α} {stolen : Nat}
    (inv : StealInv q pushed stolen) (x : α) :
    StealInv (q.emplace x) (pushed ++ [x]) stolen := by
  obtain ⟨htop, hbot, hle, hcap, hlen, hsz, hcells⟩ := inv
  by_cases hfull : q.buffer.cap - 1 < q.bottom - q.top
  · -- resize path
    have hbt : q.bottom - q.top = q.buffer.cap := by omega
    have hq : q.emplace x
        = { q with buffer := (q.buffer.resize q.bottom q.top).store q.bottom (some x),
                   garbage := q.garbage ++ [q.buffer], bottom := q.bottom + 1 } := by
      simp [Deque.emplace, Deque.emplaceE, hfull]
    rw [hq]
    have hcap2 : (0 : Int) < ((q.buffer.resize q.bottom q.top).store q.bottom (some x)).cap := by
      rw [RingBuff.store_cap, RingBuff.resize_cap]; omega
    refine ⟨htop, by simp [hbot], by simpa using Nat.le_succ_of_le hle, hcap2, ?_, ?_, ?_⟩
    · rw [RingBuff.store_length, RingBuff.resize_length, RingBuff.store_cap, RingBuff.resize_cap]
    · rw [RingBuff.store_cap, RingBuff.resize_cap]
      simp only [List.length_append, List.length_singleton]
      push_cast
      omega
    · intro i h1 h2
      simp only [List.length_append, List.length_singleton] at h2
      by_cases hi : i < pushed.length
      · have hne : ((q.buffer.resize q.bottom q.top).store q.bottom (some x)).load i
            = (q.buffer.resize q.bottom q.top).load i := by
          apply RingBuff.load_store_ne
          apply Ne.symm
          apply RingBuff.slot_ne_of_small_gap
          · rw [RingBuff.resize_cap]; omega
          · omega
          · rw [RingBuff.resize_cap]; omega
        rw [hne, RingBuff.resize_load q.buffer q.bottom q.top hcap (by omega) (by omega) i
          (by omega) (by omega), hcells i h1 hi, List.getElem?_append_left hi]
      · have hby : (i : Int) = q.bottom := by omega
        have hload := RingBuff.load_store_self (q.buffer.resize q.bottom q.top) q.bottom (some x)
          (by rw [RingBuff.resize_cap]; omega)
          (by rw [RingBuff.resize_length, RingBuff.resize_cap])
        rw [hby, hload]
        have hieq : i = pushed.length := by omega
        subst hieq
        simp
  · -- in-place path
    have hq : q.emplace x
        = { q with buffer := q.buffer.store q.bottom (some x), bottom := q.bottom + 1 } := by
      simp [Deque.emplace, Deque.emplaceE, hfull]
    rw [hq]
    refine ⟨htop, by simp [hbot], by simpa using Nat.le_succ_of_le hle,
      by rw [RingBuff.store_cap]; exact hcap,
      by rw [RingBuff.store_length, RingBuff.store_cap]; exact hlen, ?_, ?_⟩
    · rw [RingBuff.store_cap]
      simp only [List.length_append, List.length_singleton]
      push_cast
      omega
    · intro i h1 h2
      simp only [List.length_append, List.length_singleton] at h2
      by_cases hi : i < pushed.length
      · have hne : (q.buffer.store q.bottom (some x)).load i = q.buffer.load i := by
          apply RingBuff.load_store_ne
          apply Ne.symm
          exact RingBuff.slot_ne_of_small_gap q.buffer i q.bottom hcap (by omega) (by omega)
        rw [hne, hcells i h1 hi, List.getElem?_append_left hi]
      · have hby : (i : Int) = q.bottom := by omega
        have hload := RingBuff.load_store_self q.buffer q.bottom (some x) hcap hlen
        rw [hby, hload]
        have hieq : i = pushed.length := by omega
        subst hieq
        simp

theorem stealInv_steal_success {q : Deque α} {pushed : List α} {stolen : Nat}
    (inv : StealInv q pushed stolen) (hlt : stolen < pushed.length) :
    q.steal = (pushed[stolen]?, { q with top := stolen + 1 })
      ∧ StealInv { q with top := stolen + 1 } pushed (stolen + 1) := by
  obtain ⟨htop, hbot, hle, hcap, hlen, hsz, hcells⟩ := inv
  have hcond : q.top < q.bottom := by omega
  constructor
  · have hcas : q.casTop q.top (q.top + 1) = (true, { q with top := q.top + 1 }) := by
      simp [Deque.casTop]
    have hsteal : q.steal = (q.buffer.load q.top, { q with top := q.top + 1 }) := by
      simp [Deque.steal, hcond, hcas]
    rw [hsteal, htop, hcells stolen (le_refl _) hlt]
  · exact ⟨by simp [htop], hbot, hlt, hcap, hlen, by push_cast; omega,
      fun i h1 h2 => hcells i (by omega) h2⟩

theorem stealInv_steal_empty {q : Deque α} {pushed : List α} {stolen : Nat}
    (inv : StealInv q pushed stolen) (hge : stolen = pushed.length) :
    q.steal = (none, q) := by
  obtain ⟨htop, hbot, hle, hcap, hlen, hsz, hcells⟩ := inv
  have hcond : ¬ q.top < q.bottom := by omega
  simp [Deque.steal, hcond]

theorem runOps_steal_only (ops : List (Op α)) (q : Deque α) (pushed : List α)
    (stolen : Nat) (inv : StealInv q pushed stolen) :
    (runOps ops q).2
      = ((pushed ++ pushedOf ops).drop stolen).take (runOps ops q).2.length := by
  induction ops generalizing q pushed stolen with
  | nil => simp [runOps]
  | cons op rest ih =>
    cases op with
    | push x =>
      have step := ih (q.emplace x) (pushed ++ [x]) stolen (stealInv_emplace inv x)
      simpa [runOps, pushedOf] using step
    | steal =>
      by_cases hlt : stolen < pushed.length
      · obtain ⟨hsteal, inv'⟩ := stealInv_steal_success inv hlt
        have hv : pushed[stolen]? = some pushed[stolen] := List.getElem?_eq_getElem hlt
        have hbig : stolen < (pushed ++ pushedOf rest).length := by
          simp only [List.length_append]; omega
        have step := ih { q with top := stolen + 1 } pushed (stolen + 1) inv'
        have hdrop : (pushed ++ pushedOf rest).drop stolen
            = (pushed ++ pushedOf rest)[stolen] :: (pushed ++ pushedOf rest).drop (stolen + 1) :=
          List.drop_eq_getElem_cons hbig
        have hhead : (pushed ++ pushedOf rest)[stolen] = pushed[stolen] := by
          rw [List.getElem_append_left hlt]
        simp only [runOps, hsteal, hv, pushedOf]
        rw [List.length_cons, hdrop, hhead, List.take_succ_cons]
        exact congrArg (fun l => pushed[stolen] :: l) step
      · have hsle := inv.stolen_le
        have hge : stolen = pushed.length := by omega
        have hsteal := stealInv_steal_empty inv hge
        have step := ih q pushed stolen inv
        simp only [runOps, hsteal]
        exact step

end cj

namespace riften

theorem spinAll_consumed_pos (fuel : Nat) :
    ∀ (env : List Int) (c k c' : Int) (env' : List Int),
      Semaphore.spinAll fuel env c = (some k, c', env') → 1 ≤ k := by
  induction fuel with
  | zero =>
    intro env c k c' env' h
    simp [Semaphore.spinAll] at h
  | succ n ih =>
    intro env c k c' env' h
    simp only [Semaphore.spinAll] at h
    split at h
    · split at h
      · simp only [Prod.mk.injEq, Option.some.injEq] at h
        omega
      · exact ih _ _ _ _ _ h
    · exact ih _ _ _ _ _ h

theorem spinAll_no_interference (fuel : Nat) (c : Int) (hc : 1 ≤ c) (hf : 1 ≤ fuel) :
    Semaphore.spinAll fuel [] c = (some c, 0, []) := by
  cases fuel with
  | zero => omega
  | succ n =>
    simp only [Semaphore.spinAll, envTake]
    rw [if_pos (by omega : (0 : Int) < c + 0)]
    simp

theorem try_aquire_all_consumed_nonneg (env : List Int) (c : Int) :
    0 ≤ (Semaphore.try_aquire_all env c).1 := by
  unfold Semaphore.try_aquire_all
  dsimp only
  split
  · split
    · simp; omega
    · simp
  · simp

theorem acquire_all_returns_consumed_pos (env : List Int) (s : Semaphore)
    (r : Int × Semaphore) (h : Semaphore.acquire_all env s = some r) : 1 ≤ r.1 := by
  unfold Semaphore.acquire_all at h
  rcases hspin : Semaphore.spinAll 10000 env s.count with ⟨ok, c, env'⟩
  rw [hspin] at h
  cases ok with
  | some k =>
    simp only [Option.some.injEq] at h
    have := spinAll_consumed_pos 10000 env s.count k c env' hspin
    rw [← h]
    simpa using this
  | none =>
    simp only [] at h
    split at h
    · cases hk : s.kernel with
      | zero => rw [hk] at h; simp at h
      | succ kk =>
        rw [hk] at h
        simp only [Option.some.injEq] at h
        have := try_aquire_all_consumed_nonneg (envTake env').2
          (c + (envTake env').1 - 1)
        rw [← h]
        simp only []
        omega
    · simp only [Option.some.injEq] at h
      have := try_aquire_all_consumed_nonneg (envTake env').2
        (c + (envTake env').1 - 1)
      rw [← h]
      simp only []
      omega

end riften

/-- C9: for a ring buffer of power-of-two capacity `C` and indices `t ≤ b`
with `b − t ≤ C`, `resize(b, t)` returns a buffer of capacity `2·C` whose
cell at every logical index `i ∈ [t, b)` (under the new buffer's own modulo
mask) holds the same element as the old buffer's cell at `i` (under the old
mask).  The old buffer is a pure value of the embedding, so the call leaves
it unmodified and does not free it, as in the source where deletion is the
caller's job. -/
theorem C9_resize_doubles_and_copies {α : Type} (a : cj.RingBuff α) (b t : Int)
    (hpow : ∃ k : Nat, a.cap = 2 ^ k) (hle : t ≤ b) (hsz : b - t ≤ a.cap) :
    (a.resize b t).cap = 2 * a.cap ∧
      ∀ i : Int, t ≤ i → i < b → (a.resize b t).load i = a.load i := by
  obtain ⟨k, hk⟩ := hpow
  have hcap : 0 < a.cap := by rw [hk]; positivity
  exact ⟨cj.RingBuff.resize_cap a b t,
    fun i hti hib => cj.RingBuff.resize_load a b t hcap hle hsz i hti hib⟩

theorem C9_resize_doubles_and_copies_witness :
    (∃ k : Nat, (⟨2, [some 10, some 20]⟩ : cj.RingBuff Nat).cap = 2 ^ k) ∧
      (1 : Int) ≤ 3 ∧ (3 : Int) - 1 ≤ (⟨2, [some 10, some 20]⟩ : cj.RingBuff Nat).cap ∧
      (((⟨2, [some 10, some 20]⟩ : cj.RingBuff Nat).resize 3 1).cap = 2 * 2 ∧
        ∀ i : Int, 1 ≤ i → i < 3 →
          ((⟨2, [some 10, some 20]⟩ : cj.RingBuff Nat).resize 3 1).load i
            = (⟨2, [some 10, some 20]⟩ : cj.RingBuff Nat).load i) :=
  ⟨⟨1, by decide⟩, by decide, by decide,
    C9_resize_doubles_and_copies (⟨2, [some 10, some 20]⟩ : cj.RingBuff Nat) 3 1
      ⟨1, by decide⟩ (by decide) (by decide)⟩

/-- C1 (code bug): the claim — and the PPoPP'13 paper the source's own
comment says it implements, as well as the repository's `wsq2.hpp` variant —
restore `bottom` to `b + 1` in the `t == b` branch of `pop` *regardless* of
the CAS outcome, so every `pop` leaves `bottom` where it started.  The code
in `thiefdeque.hpp` restores `bottom` only on CAS failure: popping the last
element of a deque (here: capacity 2 holding one pushed value `5`, so
`bottom = 1`, `top = 0`) succeeds but leaves `bottom = 0` and `top = 1`
instead of `bottom = 1`. -/
theorem C1_pop_success_leaves_bottom_decremented :
    ((cj.Deque.new Nat 2).emplace 5).bottom = 1 ∧
      ((cj.Deque.new Nat 2).emplace 5).top = 0 ∧
      ((cj.Deque.new Nat 2).emplace 5).pop.1 = some 5 ∧
      ((cj.Deque.new Nat 2).emplace 5).pop.2.bottom = 0 ∧
      ((cj.Deque.new Nat 2).emplace 5).pop.2.top = 1 := by decide

/-- C8 (code bug, same root cause as C1): after the owner run
`push 10; pop; push 20` on a fresh capacity-2 deque, the pop succeeded
(returning `10`), so two elements were pushed and one removed — one element
is logically in the queue — yet `bottom = top = 1`, so
`max(0, bottom − top) = 0`, and the remaining element `20` is unreachable:
both a further `pop` and a further `steal` return `none`.  With the paper's
`bottom` restore the state would be `bottom = 2, top = 1`, size `1`. -/
theorem C8_size_formula_breaks_after_popping_last :
    ((((cj.Deque.new Nat 2).emplace 10).pop.2).emplace 20).bottom = 1 ∧
      ((((cj.Deque.new Nat 2).emplace 10).pop.2).emplace 20).top = 1 ∧
      ((cj.Deque.new Nat 2).emplace 10).pop.1 = some 10 ∧
      ((((cj.Deque.new Nat 2).emplace 10).pop.2).emplace 20).pop.1 = none ∧
      ((((cj.Deque.new Nat 2).emplace 10).pop.2).emplace 20).steal.1 = none := by decide

/-- C6: if, with the buffer full (`cap − 1 < bottom − top`), the resize
allocation or the `_garbage.push_back` recording the retired buffer fails,
`emplace` deletes the newly constructed element, lets the exception escape,
and leaves the whole observable deque state — `top`, `bottom`, the buffer
and the garbage list — exactly as before the call. -/
theorem C6_emplace_failure_preserves_state {α : Type} (q : cj.Deque α) (x : α)
    (rOk pOk : Bool) (hfull : q.buffer.cap - 1 < q.bottom - q.top)
    (hfail : rOk = false ∨ pOk = false) :
    q.emplaceE x rOk pOk = cj.EmplaceResult.thrown q true := by
  rcases hfail with h | h <;> subst h
  · cases pOk <;> simp [cj.Deque.emplaceE, hfull]
  · cases rOk <;> simp [cj.Deque.emplaceE, hfull]

theorem C6_emplace_failure_preserves_state_witness :
    (((cj.Deque.new Nat 1).emplace 7).buffer.cap - 1
        < ((cj.Deque.new Nat 1).emplace 7).bottom - ((cj.Deque.new Nat 1).emplace 7).top) ∧
      ((cj.Deque.new Nat 1).emplace 7).emplaceE 8 false true
        = cj.EmplaceResult.thrown ((cj.Deque.new Nat 1).emplace 7) true :=
  ⟨by decide,
    C6_emplace_failure_preserves_state ((cj.Deque.new Nat 1).emplace 7) 8 false true
      (by decide) (Or.inl rfl)⟩

/-- C7: when the owner never pops, thieves see FIFO order — for any sequence
of pushes and steals against a fresh deque (steal being the only removal),
the list of successfully stolen values is exactly the pushed values in push
order (so the i-th successful steal returns the i-th pushed element).  For
the one-worker pool: every submission targets deque `k mod 1 = 0`, and the
worker loop's victim choice with `N = 1` always picks deque 0, so such a
pool consumes tasks in submission order. -/
theorem C7_steal_only_is_fifo {α : Type} (cap : Int) (hcap : 0 < cap)
    (ops : List (cj.Op α)) :
    (cj.runOps ops (cj.Deque.new α cap)).2
        = (cj.pushedOf ops).take (cj.runOps ops (cj.Deque.new α cap)).2.length
      ∧ (∀ k : Nat, (riften.Thiefpool.new 1).executeIndex k = some 0)
      ∧ ∀ (pref : Bool) (rng : Nat), riften.chooseVictim 1 0 pref rng = 0 := by
  refine ⟨?_, ?_, ?_⟩
  · have h := cj.runOps_steal_only ops (cj.Deque.new α cap) [] 0 (cj.stealInv_new α cap hcap)
    simpa using h
  · intro k
    simp [riften.Thiefpool.executeIndex, riften.Thiefpool.new, Nat.mod_one]
  · intro pref rng
    cases pref <;> simp [riften.chooseVictim, Nat.mod_one]

theorem C7_steal_only_is_fifo_witness :
    (0 : Int) < 2 ∧
      ((cj.runOps [cj.Op.push 5, cj.Op.push 6, cj.Op.steal, cj.Op.steal]
            (cj.Deque.new Nat 2)).2
          = (cj.pushedOf [cj.Op.push 5, cj.Op.push 6, cj.Op.steal, cj.Op.steal]).take
              (cj.runOps [cj.Op.push 5, cj.Op.push 6, cj.Op.steal, cj.Op.steal]
                (cj.Deque.new Nat 2)).2.length
        ∧ (∀ k : Nat, (riften.Thiefpool.new 1).executeIndex k = some 0)
        ∧ ∀ (pref : Bool) (rng : Nat), riften.chooseVictim 1 0 pref rng = 0) :=
  ⟨by decide,
    C7_steal_only_is_fifo 2 (by decide)
      [cj.Op.push 5, cj.Op.push 6, cj.Op.steal, cj.Op.steal]⟩

/-- C2 counterexample: a detached task whose body raises (here exception
tag `7`) is executed by the worker loop as a bare bound lambda —
`enqueue_detach` submits `detail::bind(...)` with no `NullaryOneShot`
wrapper and the worker's `std::invoke` has no handler — so the failure
escapes the invocation into the worker loop instead of being swallowed. -/
theorem C2_detached_exception_escapes :
    riften.detachedRun (riften.Outcome.exn 7) = some 7 ∧
      riften.detachedRun (riften.Outcome.exn 7) ≠ none := by decide

/-- C2 amended: for `enqueue`, a task body that raises is captured by
`NullaryOneShot::operator()` (its try/catch) and delivered through the
promise/future as a failure, and nothing escapes into the worker loop; a
normally returning body delivers its value.  For `enqueue_detach`, however,
the body runs with no handler, so a raised exception escapes into the
worker loop (a normal return escapes nothing). -/
theorem C2_enqueue_captures_detach_escapes :
    (∀ (α : Type) (a : α),
        riften.nullaryOneShotRun (riften.Outcome.val a)
          = (riften.PromiseState.value a, none)) ∧
      (∀ (α : Type) (e : Nat),
        @riften.nullaryOneShotRun α (riften.Outcome.exn e)
          = (riften.PromiseState.failure e, none)) ∧
      riften.detachedRun (riften.Outcome.val ()) = none ∧
      ∀ e : Nat, riften.detachedRun (riften.Outcome.exn e) = some e :=
  ⟨fun _ _ => rfl, fun _ _ => rfl, rfl, fun _ => rfl⟩

/-- C3 counterexample: the submission cursor `count` is a plain
`std::size_t`, not an atomic, so `count++` in `execute` is a separate load
and store.  Under the interleaving load₁, load₂, store₁, store₂ (schedule
`[true, false, true, false]`), two concurrent submissions to a 2-worker
pool both read cursor value 0 — both are pushed onto deque `0 mod 2` — and
the cursor ends at 1, one increment lost.  The claimed relaxed fetch-add
cursor would give the two submissions distinct values 0 and 1 (targets
deque 0 and deque 1, cursor 2), as the sequential run `runSubmits 2 2`
shows. -/
theorem C3_plain_cursor_loses_update :
    (riften.runRace [true, false, true, false] 0
        riften.SubThread.start riften.SubThread.start).1 = 1 ∧
      riften.SubThread.target
        (riften.runRace [true, false, true, false] 0
          riften.SubThread.start riften.SubThread.start).2.1 2 = some 0 ∧
      riften.SubThread.target
        (riften.runRace [true, false, true, false] 0
          riften.SubThread.start riften.SubThread.start).2.2 2 = some 0 ∧
      riften.runSubmits 2 2 = (2, [0, 1]) := by decide

/-- C3 amended: submission selects the target worker as `count % N` where
`count` is a plain (non-atomic) `std::size_t` incremented by post-increment;
when submissions are made sequentially (a single submitting thread), the
k-th submission since pool construction is pushed onto deque `k mod N` and
the cursor counts the submissions.  Because the cursor is not atomic,
concurrent submissions race on it (see the counterexample). -/
theorem C3_sequential_round_robin (N k : Nat) :
    riften.runSubmits N k = (k, (List.range k).map (fun j => j % N)) := by
  induction k with
  | zero => rfl
  | succ n ih =>
    simp only [riften.runSubmits, ih, List.range_succ, List.map_append, List.map_cons,
      List.map_nil]

/-- C4: `acquire_all` with current count `old ≥ 1` and no interference from
other threads returns via the first spin iteration's CAS — without touching
the kernel semaphore (`kernel` unchanged, no wait) — having consumed all
`old` counts at once, leaving the counter at 0; and on every schedule on
which the call returns at all it has consumed at least one count. -/
theorem C4_acquire_all_consumes_all_then_some :
    (∀ (c : Int) (kernel : Nat), 1 ≤ c →
        riften.Semaphore.acquire_all [] ⟨c, kernel⟩ = some (c, ⟨0, kernel⟩)) ∧
      ∀ (env : List Int) (s : riften.Semaphore) (r : Int × riften.Semaphore),
        riften.Semaphore.acquire_all env s = some r → 1 ≤ r.1 := by
  constructor
  · intro c kernel hc
    unfold riften.Semaphore.acquire_all
    rw [riften.spinAll_no_interference 10000 c hc (by norm_num)]
  · exact riften.acquire_all_returns_consumed_pos

theorem C4_acquire_all_witness :
    (1 : Int) ≤ 3 ∧
      riften.Semaphore.acquire_all [] ⟨3, 5⟩ = some (3, ⟨0, 5⟩) ∧
      1 ≤ ((3 : Int), (⟨0, 5⟩ : riften.Semaphore)).1 :=
  ⟨by decide, C4_acquire_all_consumes_all_then_some.1 3 5 (by decide),
    C4_acquire_all_consumes_all_then_some.2 [] ⟨3, 5⟩ (3, ⟨0, 5⟩)
      (C4_acquire_all_consumes_all_then_some.1 3 5 (by decide))⟩

/-- C5: `release(n)` with `n ≥ 1` adds `n` to the counter (fetching the old
value `old`) and signals the kernel semaphore exactly
`toWake = min(n, max(0, −old))` times — so never when `old ≥ 0`. -/
theorem C5_release_signals_min (old : Int) (kernel : Nat) (n : Int) (hn : 1 ≤ n) :
    (riften.Semaphore.release ⟨old, kernel⟩ n).1.count = old + n ∧
      (riften.Semaphore.release ⟨old, kernel⟩ n).2 = min n (max 0 (-old)) ∧
      (riften.Semaphore.release ⟨old, kernel⟩ n).1.kernel
        = kernel + (min n (max 0 (-old))).toNat ∧
      (0 ≤ old → (riften.Semaphore.release ⟨old, kernel⟩ n).2 = 0) := by
  unfold riften.Semaphore.release
  dsimp only
  split <;> split <;> dsimp only <;>
    exact ⟨rfl, by omega, by omega, by omega⟩

theorem C5_release_signals_min_witness :
    (1 : Int) ≤ 2 ∧
      ((riften.Semaphore.release ⟨-3, 4⟩ 2).1.count = -3 + 2 ∧
        (riften.Semaphore.release ⟨-3, 4⟩ 2).2 = min 2 (max 0 (-(-3))) ∧
        (riften.Semaphore.release ⟨-3, 4⟩ 2).1.kernel = 4 + (min 2 (max 0 (-(-3)))).toNat ∧
        (0 ≤ (-3 : Int) → (riften.Semaphore.release ⟨-3, 4⟩ 2).2 = 0)) :=
  ⟨by decide, C5_release_signals_min (-3) 4 2 (by decide)⟩

/-- C10: the pool constructor accepts `num_threads = 0` without any check,
yielding an empty deque vector; `execute`'s `count++ % _deques.size()` then
divides by zero (undefined behaviour, modelled as `none`), so the modulo in
every enqueue/enqueue_detach is well defined exactly under the unchecked
precondition `num_threads ≥ 1`. -/
theorem C10_zero_workers_accepted_modulo_undefined :
    (riften.Thiefpool.new 0).dequeCount = 0 ∧
      (∀ c : Nat, (riften.Thiefpool.new 0).executeIndex c = none) ∧
      ∀ (n c : Nat),
        (riften.Thiefpool.new (n + 1)).executeIndex c = some (c % (n + 1)) := by
  refine ⟨rfl, fun c => rfl, fun n c => ?_⟩
  simp [riften.Thiefpool.executeIndex, riften.Thiefpool.new]
